import Mathlib

/-
  Verification of the baseline reconciliation engine of `lab1/hids.py`,
  a host file-integrity baseline tool.

  The store is a Python dict from absolute path to an entry dict with keys
  "type", "uid", "gid", "mode", "size", "hash".  We embed the store as an
  association list with Python-dict semantics (assignment replaces the
  binding in place, new keys are appended, `del` removes the binding), and
  an entry as a record of six optional fields, one per possible key.
  Values in an entry dict are Python ints or strings, embedded as `Value`.
  `os.stat` and `hashlib` results are supplied through an `FS` oracle so
  that the operations become pure functions of the oracle, the store and
  the live path lists.
-/

set_option linter.unusedVariables false

namespace HIDS

/-- A Python value stored in an entry dict: an int or a string. -/
inductive Value where
  | int : Nat → Value
  | str : String → Value
deriving DecidableEq, Repr

/-- Whether a stored value is an integer (as opposed to a string). -/
def Value.isInt : Value → Bool
  | Value.int _ => true
  | Value.str _ => false

/-- One entry dict of the database: each field is `some v` when the
corresponding key ("type", "uid", "gid", "mode", "size", "hash") is
present with value `v`, and `none` when the key is absent. -/
structure Entry where
  type : Option Value
  uid : Option Value
  gid : Option Value
  mode : Option Value
  size : Option Value
  hash : Option Value
deriving DecidableEq, Repr

/-- The in-memory database: a mapping from path to entry, embedded as an
association list in insertion order, mirroring a Python dict. -/
abbrev Store := List (String × Entry)

/-- `data[k]` lookup returning the first (for a dict: the only) binding. -/
def findEntry (d : Store) (k : String) : Option Entry :=
  match d with
  | [] => none
  | kv :: rest => if kv.1 = k then some kv.2 else findEntry rest k

/-- `k in data`. -/
def containsKey (d : Store) (k : String) : Bool :=
  (findEntry d k).isSome

/-- `data[k] = v`: replace the binding in place if the key is present,
append it otherwise (Python dict assignment). -/
def insertEntry (d : Store) (k : String) (v : Entry) : Store :=
  match d with
  | [] => [(k, v)]
  | kv :: rest => if kv.1 = k then (k, v) :: rest else kv :: insertEntry rest k v

/-- `del data[k]`: remove the binding of `k`. -/
def eraseKey (d : Store) (k : String) : Store :=
  match d with
  | [] => []
  | kv :: rest => if kv.1 = k then rest else kv :: eraseKey rest k

/-- The list of keys of the store, in order. -/
def keysOf (d : Store) : List String :=
  d.map Prod.fst

/-- The result of one `os.stat` call: the fields the program reads. -/
structure FileStat where
  st_uid : Nat
  st_gid : Nat
  st_mode : Nat
  st_size : Nat
deriving DecidableEq, Repr

/-- The filesystem oracle: per-path stat results for files and for
directories, and the sha256 hex digest of each file's current content.
The caller guarantees every supplied file path is a regular file and
every supplied directory path is a directory, so the oracle is total. -/
structure FS where
  fstat : String → FileStat
  dstat : String → FileStat
  sha256 : String → String

/-- `stat.S_IMODE(m)`: the permission-mode portion of `st_mode`, i.e. the
mode with the file-type bits masked out. -/
def S_IMODE (m : Nat) : Nat :=
  m &&& 0o7777

/-- Python `oct(n)` for a natural number: the string `0o` followed by the
base-8 digits of `n`. -/
def octStr (n : Nat) : String :=
  "0o" ++ String.mk (Nat.toDigits 8 n)

/-- `filedata(fpath)`: the entry dict recorded for a regular file — keys
"type" (`"f"`), "uid", "gid", "mode" (`oct(S_IMODE(st_mode))`), "size";
no "hash" key. -/
def filedata (fs : FS) (fpath : String) : Entry :=
  let stats := fs.fstat fpath
  { type := some (Value.str "f")
    uid := some (Value.int stats.st_uid)
    gid := some (Value.int stats.st_gid)
    mode := some (Value.str (octStr (S_IMODE stats.st_mode)))
    size := some (Value.int stats.st_size)
    hash := none }

/-- `dirdata(dpath)`: the entry dict recorded for a directory — keys
"type" (`"d"`), "uid", "gid", "mode"; no "size" or "hash" key. -/
def dirdata (fs : FS) (dpath : String) : Entry :=
  let stats := fs.dstat dpath
  { type := some (Value.str "d")
    uid := some (Value.int stats.st_uid)
    gid := some (Value.int stats.st_gid)
    mode := some (Value.str (octStr (S_IMODE stats.st_mode)))
    size := none
    hash := none }

/-- One key of `data[p].update(new_data)`: the new value if the key is
present in `new_data`, the old one otherwise. -/
def fieldUpdate (ef nf : Option Value) : Option Value :=
  match nf with
  | some v => some v
  | none => ef

/-- `data[p].update(new_data)` over the six possible keys. -/
def entryUpdate (e nd : Entry) : Entry :=
  { type := fieldUpdate e.type nd.type
    uid := fieldUpdate e.uid nd.uid
    gid := fieldUpdate e.gid nd.gid
    mode := fieldUpdate e.mode nd.mode
    size := fieldUpdate e.size nd.size
    hash := fieldUpdate e.hash nd.hash }

/-- One key of the `update` change check: `key not in data[p] or
data[p][key] != new_data[key]`, ranging over the keys of `new_data`. -/
def fieldChanged (ef nf : Option Value) : Bool :=
  match nf with
  | none => false
  | some v => if ef = some v then false else true

/-- The `update` change check over the keys of `new_data`. -/
def entryChanged (e nd : Entry) : Bool :=
  fieldChanged e.type nd.type || fieldChanged e.uid nd.uid ||
  fieldChanged e.gid nd.gid || fieldChanged e.mode nd.mode ||
  fieldChanged e.size nd.size || fieldChanged e.hash nd.hash

/-- One key of the `verify` attribute check: `key in data[p] and
current[key] != data[p][key]`, ranging over the keys of `current`. -/
def fieldMismatch (cf ef : Option Value) : Bool :=
  match cf, ef with
  | some c, some r => if c = r then false else true
  | _, _ => false

/-- The `verify` attribute check over the keys of `current`: does any key
recorded in both the current and the stored entry differ? -/
def entryMismatch (cur e : Entry) : Bool :=
  fieldMismatch cur.type e.type || fieldMismatch cur.uid e.uid ||
  fieldMismatch cur.gid e.gid || fieldMismatch cur.mode e.mode ||
  fieldMismatch cur.size e.size || fieldMismatch cur.hash e.hash

-- ### Action 2: add

/-- Result of `add`: success with the final store, or the first
conflicting path together with the store as mutated so far. -/
inductive AddResult where
  | ok : Store → AddResult
  | conflict : String → Store → AddResult
deriving DecidableEq, Repr

/-- The files loop of `add`: insert `filedata` for each path not yet in
the database; abort with the path at the first one already present. -/
def addFiles (fs : FS) (data : Store) : List String → AddResult
  | [] => AddResult.ok data
  | fpath :: rest =>
    if containsKey data fpath then AddResult.conflict fpath data
    else addFiles fs (insertEntry data fpath (filedata fs fpath)) rest

/-- The directories loop of `add`, symmetric with `dirdata`. -/
def addDirs (fs : FS) (data : Store) : List String → AddResult
  | [] => AddResult.ok data
  | dpath :: rest =>
    if containsKey data dpath then AddResult.conflict dpath data
    else addDirs fs (insertEntry data dpath (dirdata fs dpath)) rest

/-- `add(data, files, directories)`: the files loop, then the
directories loop. -/
def add (fs : FS) (data : Store) (files directories : List String) : AddResult :=
  match addFiles fs data files with
  | AddResult.ok d2 => addDirs fs d2 directories
  | AddResult.conflict p d2 => AddResult.conflict p d2

/-- The store carried by an `add` result (conflicts keep the store as
mutated so far — there is no rollback). -/
def addStore : AddResult → Store
  | AddResult.ok d => d
  | AddResult.conflict _ d => d

-- ### Action 3: hash

/-- Result of `cksum`: success with the hash count and final store, or
the first failing path and reason, with the store as mutated so far. -/
inductive CksumResult where
  | ok : Nat → Store → CksumResult
  | notTracked : String → Store → CksumResult
  | alreadyHashed : String → Store → CksumResult
deriving DecidableEq, Repr

/-- `data[fpath]['hash'] = h`. -/
def setHash (e : Entry) (h : String) : Entry :=
  { e with hash := some (Value.str h) }

/-- The loop of `cksum` over the file paths, threading `hash_count`. -/
def cksumGo (fs : FS) (data : Store) (hash_count : Nat) : List String → CksumResult
  | [] => CksumResult.ok hash_count data
  | fpath :: rest =>
    match findEntry data fpath with
    | none => CksumResult.notTracked fpath data
    | some e =>
      if e.hash.isSome then CksumResult.alreadyHashed fpath data
      else cksumGo fs (insertEntry data fpath (setHash e (fs.sha256 fpath))) (hash_count + 1) rest

/-- `cksum(data, files, directories)`: processes only `files`; the
`directories` argument is never read by the body. -/
def cksum (fs : FS) (data : Store) (files directories : List String) : CksumResult :=
  cksumGo fs data 0 files

/-- The store carried by a `cksum` result. -/
def cksumStore : CksumResult → Store
  | CksumResult.ok _ d => d
  | CksumResult.notTracked _ d => d
  | CksumResult.alreadyHashed _ d => d

-- ### Action 4: update

/-- Outcome of `update`: the four printed counters and the final store. -/
structure UpdateResult where
  new_count : Nat
  changed_count : Nat
  removed_hash_count : Nat
  removed_entry_count : Nat
  store : Store
deriving DecidableEq, Repr

/-- The removal pass of `update`: collect every database key absent from
both live lists, then delete each, counting the deletions. -/
def removePass (data : Store) (files directories : List String) : Store × Nat :=
  let to_remove := (keysOf data).filter (fun k => !(decide (k ∈ files)) && !(decide (k ∈ directories)))
  (to_remove.foldl (fun d k => eraseKey d k) data, to_remove.length)

/-- The files pass of `update`: state is the store and the `new`,
`changed` and `removed hash` counters. -/
def updateFiles (fs : FS) (data : Store) (new_count changed_count removed_hash_count : Nat) :
    List String → Store × Nat × Nat × Nat
  | [] => (data, new_count, changed_count, removed_hash_count)
  | fpath :: rest =>
    match findEntry data fpath with
    | none =>
      updateFiles fs (insertEntry data fpath (filedata fs fpath))
        (new_count + 1) changed_count removed_hash_count rest
    | some e =>
      let new_data := filedata fs fpath
      let changed := entryChanged e new_data
      let e2 := entryUpdate e new_data
      let e3 := if e2.hash.isSome then { e2 with hash := none } else e2
      let removed_hash_count2 := if e2.hash.isSome then removed_hash_count + 1 else removed_hash_count
      updateFiles fs (insertEntry data fpath e3) new_count
        (if changed then changed_count + 1 else changed_count) removed_hash_count2 rest

/-- The directories pass of `update`: like the files pass but with
`dirdata` and no hash-removal step. -/
def updateDirs (fs : FS) (data : Store) (new_count changed_count : Nat) :
    List String → Store × Nat × Nat
  | [] => (data, new_count, changed_count)
  | dpath :: rest =>
    match findEntry data dpath with
    | none =>
      updateDirs fs (insertEntry data dpath (dirdata fs dpath)) (new_count + 1) changed_count rest
    | some e =>
      let new_data := dirdata fs dpath
      let changed := entryChanged e new_data
      updateDirs fs (insertEntry data dpath (entryUpdate e new_data)) new_count
        (if changed then changed_count + 1 else changed_count) rest

/-- `update(data, files, directories)`: removal pass, files pass,
directories pass; reports the four counters and always succeeds. -/
def update (fs : FS) (data : Store) (files directories : List String) : UpdateResult :=
  let r0 := removePass data files directories
  let r1 := updateFiles fs r0.1 0 0 0 files
  let r2 := updateDirs fs r1.1 r1.2.1 r1.2.2.1 directories
  { new_count := r2.2.1
    changed_count := r2.2.2
    removed_hash_count := r1.2.2.2
    removed_entry_count := r0.2
    store := r2.1 }

-- ### Action 5: verify

/-- Outcome of `verify`: the clean flag, the four per-category counters,
and the store handed back (the body never assigns into it). -/
structure VerifyResult where
  clean : Bool
  missing_count : Nat
  new_count : Nat
  mismatch_count : Nat
  hash_changed_count : Nat
  store : Store
deriving DecidableEq, Repr

/-- The missing check of `verify`: count database keys absent from both
live lists. -/
def missingCount (data : Store) (files directories : List String) : Nat :=
  List.countP (fun k => !(decide (k ∈ files)) && !(decide (k ∈ directories))) (keysOf data)

/-- The files loop of `verify`: state is the store (read only) and the
`new`, `mismatch` and `hash changed` counters.  A path whose attributes
differ in several keys is flagged once; a hash difference is counted
separately. -/
def verifyFiles (fs : FS) (data : Store) (new_count mismatch_count hash_changed_count : Nat) :
    List String → Store × Nat × Nat × Nat
  | [] => (data, new_count, mismatch_count, hash_changed_count)
  | fpath :: rest =>
    match findEntry data fpath with
    | none => verifyFiles fs data (new_count + 1) mismatch_count hash_changed_count rest
    | some e =>
      if e.type = some (Value.str "f") then
        let current := filedata fs fpath
        let mismatch_count2 := if entryMismatch current e then mismatch_count + 1 else mismatch_count
        let hash_changed_count2 :=
          match e.hash with
          | some h => if Value.str (fs.sha256 fpath) = h then hash_changed_count else hash_changed_count + 1
          | none => hash_changed_count
        verifyFiles fs data new_count mismatch_count2 hash_changed_count2 rest
      else
        verifyFiles fs data new_count (mismatch_count + 1) hash_changed_count rest

/-- The directories loop of `verify`, symmetric minus hashing. -/
def verifyDirs (fs : FS) (data : Store) (new_count mismatch_count : Nat) :
    List String → Store × Nat × Nat
  | [] => (data, new_count, mismatch_count)
  | dpath :: rest =>
    match findEntry data dpath with
    | none => verifyDirs fs data (new_count + 1) mismatch_count rest
    | some e =>
      if e.type = some (Value.str "d") then
        let current := dirdata fs dpath
        verifyDirs fs data new_count
          (if entryMismatch current e then mismatch_count + 1 else mismatch_count) rest
      else
        verifyDirs fs data new_count (mismatch_count + 1) rest

/-- `verify(data, files, directories)`: missing check, files loop,
directories loop; clean exactly when all four counters are zero. -/
def verify (fs : FS) (data : Store) (files directories : List String) : VerifyResult :=
  let missing_count := missingCount data files directories
  let r1 := verifyFiles fs data 0 0 0 files
  let r2 := verifyDirs fs r1.1 r1.2.1 r1.2.2.1 directories
  let total := missing_count + r2.2.1 + r2.2.2 + r1.2.2.2
  { clean := decide (total = 0)
    missing_count := missing_count
    new_count := r2.2.1
    mismatch_count := r2.2.2
    hash_changed_count := r1.2.2.2
    store := r2.1 }

-- ### helper: sha256file resource model

/-- Execution trace of one `sha256file` call: the outcome (an `IOError`
or the hex digest) and whether `f.close()` was executed. -/
structure HashRun where
  result : Except Unit String
  closed : Bool
deriving Repr

/-- The read loop of `sha256file` over a script of read results: each
element is `some chunk` (the bytes returned by `f.read(BUFSIZE)`) or
`none` (the read raises `IOError`).  The source has no `try`/`finally`
and no `with` block, so a raised read error propagates before the
`f.close()` line is reached and the run ends with `closed := false`; an
exhausted script reads as end of file. -/
def sha256Loop (digestFn : List Nat → String) (acc buffer : List Nat) :
    List (Option (List Nat)) → HashRun
  | [] =>
    if buffer.length = 0 then { result := Except.ok (digestFn acc), closed := true }
    else { result := Except.ok (digestFn (acc ++ buffer)), closed := true }
  | r :: rest =>
    if buffer.length = 0 then { result := Except.ok (digestFn acc), closed := true }
    else
      match r with
      | none => { result := Except.error (), closed := false }
      | some b => sha256Loop digestFn (acc ++ buffer) b rest

/-- `sha256file(fpath)` over a read script: open, first read, loop.  A
failure of the very first read also propagates before `f.close()`. -/
def sha256fileRun (digestFn : List Nat → String) : List (Option (List Nat)) → HashRun
  | [] => { result := Except.ok (digestFn []), closed := true }
  | r :: rest =>
    match r with
    | none => { result := Except.error (), closed := false }
    | some b => sha256Loop digestFn [] b rest

-- ### basic store lemmas

theorem keysOf_cons (kv : String × Entry) (rest : Store) :
    keysOf (kv :: rest) = kv.1 :: keysOf rest := rfl

theorem findEntry_insert (d : Store) (k : String) (v : Entry) (q : String) :
    findEntry (insertEntry d k v) q = if q = k then some v else findEntry d q := by
  induction d with
  | nil =>
    simp only [insertEntry, findEntry]
    by_cases h : q = k
    · simp [h]
    · rw [if_neg (fun hh => h hh.symm), if_neg h]
  | cons kv rest ih =>
    by_cases hk : kv.1 = k
    · simp only [insertEntry, if_pos hk, findEntry]
      by_cases hq : q = k
      · subst hq; simp
      · rw [if_neg (fun hh => hq hh.symm), if_neg hq,
          if_neg (fun hh : kv.1 = q => hq (hh.symm.trans hk))]
    · simp only [insertEntry, if_neg hk, findEntry]
      by_cases hkq : kv.1 = q
      · have hq : ¬q = k := fun h => hk (hkq.trans h)
        rw [if_pos hkq, if_neg hq, if_pos hkq]
      · rw [if_neg hkq, ih]
        by_cases hq : q = k
        · simp [hq]
        · rw [if_neg hq, if_neg hq, if_neg hkq]

theorem insertEntry_of_findEntry (d : Store) (k : String) (v : Entry)
    (h : findEntry d k = some v) : insertEntry d k v = d := by
  induction d with
  | nil => simp [findEntry] at h
  | cons kv rest ih =>
    obtain ⟨a, b⟩ := kv
    by_cases hk : a = k
    · subst hk
      simp [findEntry] at h
      subst h
      simp [insertEntry]
    · simp [findEntry, hk] at h
      simp [insertEntry, hk, ih h]

theorem findEntry_eq_none_of_not_mem (d : Store) (k : String)
    (h : ∀ kv, kv ∈ d → kv.1 ≠ k) : findEntry d k = none := by
  induction d with
  | nil => rfl
  | cons kv rest ih =>
    simp [findEntry, h kv (List.mem_cons_self kv rest)]
    exact ih (fun kv2 h2 => h kv2 (List.mem_cons_of_mem kv h2))

theorem not_mem_of_findEntry_eq_none (d : Store) (k : String)
    (h : findEntry d k = none) : ∀ kv, kv ∈ d → kv.1 ≠ k := by
  induction d with
  | nil => intro kv h2; simp at h2
  | cons kv rest ih =>
    intro kv2 h2
    by_cases hk : kv.1 = k
    · simp [findEntry, hk] at h
    · simp [findEntry, hk] at h
      rcases List.mem_cons.mp h2 with h3 | h3
      · rw [h3]; exact hk
      · exact ih h kv2 h3

theorem findEntry_mem (d : Store) (k : String) (e : Entry)
    (h : findEntry d k = some e) : (k, e) ∈ d := by
  induction d with
  | nil => simp [findEntry] at h
  | cons kv rest ih =>
    by_cases hk : kv.1 = k
    · simp [findEntry, hk] at h
      exact List.mem_cons.mpr (Or.inl (by rw [← hk, ← h]))
    · simp [findEntry, hk] at h
      exact List.mem_cons_of_mem kv (ih h)

theorem keysOf_insertEntry (d : Store) (k : String) (v : Entry) :
    keysOf (insertEntry d k v) = if containsKey d k then keysOf d else keysOf d ++ [k] := by
  induction d with
  | nil => simp [insertEntry, keysOf, containsKey, findEntry]
  | cons kv rest ih =>
    by_cases hk : kv.1 = k
    · simp [insertEntry, keysOf_cons, containsKey, findEntry, hk]
    · have hcc : containsKey (kv :: rest) k = containsKey rest k := by
        simp [containsKey, findEntry, hk]
      rw [insertEntry, if_neg hk, keysOf_cons, keysOf_cons, hcc]
      by_cases hc : containsKey rest k
      · rw [if_pos hc, ih, if_pos hc]
      · rw [if_neg hc, ih, if_neg hc]
        simp

theorem nodup_keysOf_insertEntry (d : Store) (k : String) (v : Entry)
    (h : (keysOf d).Nodup) : (keysOf (insertEntry d k v)).Nodup := by
  rw [keysOf_insertEntry]
  by_cases hc : containsKey d k
  · rwa [if_pos hc]
  · rw [if_neg hc]
    rw [List.nodup_append]
    refine ⟨h, List.nodup_singleton k, ?_⟩
    intro a ha hb
    simp at hb
    subst hb
    have hn : findEntry d a = none :=
      Option.not_isSome_iff_eq_none.mp (by simpa [containsKey] using hc)
    rcases List.mem_map.mp ha with ⟨kv, hkv, hfst⟩
    exact not_mem_of_findEntry_eq_none d a hn kv hkv hfst

-- ### concrete fixtures used by counterexamples and witnesses

/-- A concrete filesystem oracle: every file stats as uid/gid 1000, mode
`0o100644` (a regular file with permissions 644), size 42, and hashes to
"aabbcc"; every directory stats as uid/gid 0, mode `0o40755`. -/
def fsA : FS :=
  { fstat := fun _ => { st_uid := 1000, st_gid := 1000, st_mode := 0o100644, st_size := 42 }
    dstat := fun _ => { st_uid := 0, st_gid := 0, st_mode := 0o40755, st_size := 4096 }
    sha256 := fun _ => "aabbcc" }

/-- The file entry `fsA` produces, without a hash. -/
def entryFile : Entry :=
  { type := some (Value.str "f"), uid := some (Value.int 1000), gid := some (Value.int 1000)
    mode := some (Value.str "0o644"), size := some (Value.int 42), hash := none }

/-- The same file entry after hashing. -/
def entryFileHashed : Entry :=
  { entryFile with hash := some (Value.str "aabbcc") }

-- ### verify reads the store without ever writing it

theorem verifyFiles_store (fs : FS) (data : Store) (n m h : Nat) (l : List String) :
    (verifyFiles fs data n m h l).1 = data := by
  induction l generalizing n m h with
  | nil => rfl
  | cons p rest ih =>
    rw [verifyFiles]
    split
    · exact ih _ _ _
    · split
      · exact ih _ _ _
      · exact ih _ _ _

theorem verifyDirs_store (fs : FS) (data : Store) (n m : Nat) (l : List String) :
    (verifyDirs fs data n m l).1 = data := by
  induction l generalizing n m with
  | nil => rfl
  | cons p rest ih =>
    rw [verifyDirs]
    split
    · exact ih _ _
    · split
      · exact ih _ _
      · exact ih _ _

theorem verify_store_eq (fs : FS) (data : Store) (files directories : List String) :
    (verify fs data files directories).store = data := by
  show (verifyDirs fs (verifyFiles fs data 0 0 0 files).1 _ _ directories).1 = data
  rw [verifyDirs_store, verifyFiles_store]

/-- Claim C2: for every store and every pair of live path lists, `verify`
never mutates the store: the mapping it hands back, whether the result is
clean or not, is identical binding for binding to the mapping it was
given. -/
theorem verify_never_mutates_store (fs : FS) (data : Store) (files directories : List String) :
    (verify fs data files directories).store = data :=
  verify_store_eq fs data files directories

/-- Claim C10: `cksum` is independent of its `directories` argument — the
body never reads it, so the result and the store mutation are literally
the same function of the store and the files list for any two directory
lists. -/
theorem cksum_ignores_directories (fs : FS) (data : Store) (files d1 d2 : List String) :
    cksum fs data files d1 = cksum fs data files d2 := rfl

/-- Claim C9 (code bug): `sha256file` opens the file with a bare `open`
and has no `try`/`finally` or `with` block, so on the trace where the
second read raises `IOError` the exception propagates before the
`f.close()` line and the handle is NOT closed, while on the normal trace
it is closed — contradicting the spec's guarantee that the handle is
released on every exit path. -/
theorem sha256file_close_skipped_on_error :
    sha256fileRun (fun _ => "") [some [1, 2, 3], none] =
      { result := Except.error (), closed := false } ∧
    sha256fileRun (fun _ => "") [some [1, 2, 3]] =
      { result := Except.ok "", closed := true } :=
  ⟨rfl, rfl⟩

/-- Claim C8, counterexample: at a live file of mode `0o100644` the Entry
Modeler stores the permission field as the octal STRING `"0o644"` (Python
`oct` applied to the masked mode), not as an integer as the claim
states. -/
theorem mode_not_integer_cex :
    (filedata fsA "/tmp/a").mode = some (Value.str "0o644") ∧
    Option.map Value.isInt ((filedata fsA "/tmp/a").mode) = some false := by
  constructor <;> rfl

/-- Claim C8 as amended: for every path whose entry is computed by
`filedata` or `dirdata`, the stored permission field is the octal string
representation (Python `oct`) of the permission-mode portion of the
filesystem mode with the type bits masked out (`stat.S_IMODE`). -/
theorem mode_stored_as_octal_string (fs : FS) (p : String) :
    (filedata fs p).mode = some (Value.str (octStr (S_IMODE (fs.fstat p).st_mode))) ∧
    (dirdata fs p).mode = some (Value.str (octStr (S_IMODE (fs.dstat p).st_mode))) :=
  ⟨rfl, rfl⟩

-- ### add processes files, then directories, sequentially

/-- Modelled from the claim (spec §4.2): process the tagged path list —
every file path (tagged `true`), then every directory path (tagged
`false`), in the order supplied.  If the path is already a key the whole
operation aborts immediately with that first conflicting path, keeping
every entry inserted earlier in the same call (no rollback) and
inserting nothing for the conflicting path or any path after it;
otherwise its freshly computed entry is inserted and processing
continues, ending in success. -/
def addClaimed (fs : FS) (data : Store) : List (String × Bool) → AddResult
  | [] => AddResult.ok data
  | pb :: rest =>
    if containsKey data pb.1 then AddResult.conflict pb.1 data
    else addClaimed fs
      (insertEntry data pb.1 (if pb.2 then filedata fs pb.1 else dirdata fs pb.1)) rest

theorem addDirs_eq_addClaimed (fs : FS) (data : Store) (directories : List String) :
    addDirs fs data directories =
      addClaimed fs data (directories.map (fun p => (p, false))) := by
  induction directories generalizing data with
  | nil => rfl
  | cons p rest ih =>
    rw [List.map_cons, addDirs, addClaimed]
    by_cases hc : containsKey data p
    · simp [hc]
    · simp only [hc, if_false, Bool.false_eq_true, if_neg]
      exact ih _

/-- Claim C3: `add` is exactly the sequential insert-or-abort process of
the claim, run over the file paths then the directory paths in the order
supplied: it aborts at the first path already tracked, reporting that
path, keeping entries inserted earlier in the same call and inserting
nothing from the conflicting path on; with no conflict it inserts a
freshly computed entry for every path and succeeds. -/
theorem add_matches_sequential_spec (fs : FS) (data : Store) (files directories : List String) :
    add fs data files directories =
      addClaimed fs data
        (files.map (fun p => (p, true)) ++ directories.map (fun p => (p, false))) := by
  induction files generalizing data with
  | nil =>
    rw [add, addFiles]
    simp only [List.map_nil, List.nil_append]
    exact addDirs_eq_addClaimed fs data directories
  | cons p rest ih =>
    rw [add, addFiles]
    by_cases hc : containsKey data p
    · simp [hc, addClaimed]
    · rw [if_neg hc]
      rw [List.map_cons, List.cons_append, addClaimed]
      simp only [hc, if_false, Bool.false_eq_true, if_neg, if_true]
      rw [← ih]
      rfl

-- ### cksum fails at the first bad path, keeping earlier hashes

/-- The store evolution along the successful prefix of a `cksum` call:
the hash of each processed path is computed and assigned in order. -/
def assignHashes (fs : FS) (data : Store) : List String → Store
  | [] => data
  | p :: rest =>
    match findEntry data p with
    | some e => assignHashes fs (insertEntry data p (setHash e (fs.sha256 p))) rest
    | none => assignHashes fs data rest

theorem assignHashes_find_of_not_mem (fs : FS) (l : List String) (data : Store) (q : String)
    (h : ¬q ∈ l) : findEntry (assignHashes fs data l) q = findEntry data q := by
  induction l generalizing data with
  | nil => rfl
  | cons p rest ih =>
    have hq : ¬q ∈ rest := fun hh => h (List.mem_cons_of_mem p hh)
    have hqp : ¬q = p := fun hh => h (hh ▸ List.mem_cons_self p rest)
    rw [assignHashes]
    cases hf : findEntry data p with
    | none => exact ih _ hq
    | some e =>
      rw [ih _ hq, findEntry_insert, if_neg hqp]

theorem assignHashes_preserves_hashed (fs : FS) (l : List String) (data : Store) (q : String)
    (h : ∃ e2, findEntry data q = some e2 ∧ e2.hash = some (Value.str (fs.sha256 q))) :
    ∃ e2, findEntry (assignHashes fs data l) q = some e2 ∧
      e2.hash = some (Value.str (fs.sha256 q)) := by
  induction l generalizing data with
  | nil => exact h
  | cons p rest ih =>
    rw [assignHashes]
    cases hf : findEntry data p with
    | none => exact ih _ h
    | some e =>
      apply ih
      by_cases hqp : q = p
      · subst hqp
        exact ⟨setHash e (fs.sha256 q), by rw [findEntry_insert, if_pos rfl], rfl⟩
      · rcases h with ⟨e2, he2, hh2⟩
        exact ⟨e2, by rw [findEntry_insert, if_neg hqp]; exact he2, hh2⟩

theorem cksumGo_ok_char (fs : FS) (files : List String) (data : Store) (n c : Nat) (st : Store)
    (h : cksumGo fs data n files = CksumResult.ok c st) :
    c = n + files.length ∧ st = assignHashes fs data files := by
  induction files generalizing data n with
  | nil =>
    rw [cksumGo] at h
    injection h with h1 h2
    simp only [List.length_nil]
    exact ⟨by omega, h2.symm⟩
  | cons p rest ih =>
    rw [cksumGo] at h
    cases hf : findEntry data p with
    | none => simp only [hf] at h; exact absurd h (by simp)
    | some e =>
      simp only [hf] at h
      by_cases hh : e.hash.isSome
      · rw [if_pos hh] at h; exact absurd h (by simp)
      · rw [if_neg hh] at h
        rcases ih _ _ h with ⟨h1, h2⟩
        refine ⟨by simpa using by omega, ?_⟩
        rw [assignHashes, hf]
        exact h2

theorem cksumGo_notTracked_char (fs : FS) (files : List String) (data : Store) (n : Nat)
    (p : String) (st : Store)
    (h : cksumGo fs data n files = CksumResult.notTracked p st) :
    ∃ pre suf, files = pre ++ p :: suf ∧ st = assignHashes fs data pre ∧
      findEntry st p = none ∧
      (∀ q, q ∈ pre → ∃ e2, findEntry st q = some e2 ∧
        e2.hash = some (Value.str (fs.sha256 q))) := by
  induction files generalizing data n with
  | nil => rw [cksumGo] at h; exact absurd h (by simp)
  | cons p0 rest ih =>
    rw [cksumGo] at h
    cases hf : findEntry data p0 with
    | none =>
      simp only [hf] at h
      injection h with h1 h2
      subst h1
      subst h2
      exact ⟨[], rest, rfl, rfl, hf, by simp⟩
    | some e =>
      simp only [hf] at h
      by_cases hh : e.hash.isSome
      · rw [if_pos hh] at h; exact absurd h (by simp)
      · rw [if_neg hh] at h
        rcases ih _ _ h with ⟨pre, suf, h1, h2, h3, h4⟩
        refine ⟨p0 :: pre, suf, by rw [h1]; rfl, ?_, h3, ?_⟩
        · rw [assignHashes, hf]; exact h2
        · intro q hq
          rcases List.mem_cons.mp hq with hq0 | hq0
          · subst hq0
            rw [h2]
            apply assignHashes_preserves_hashed
            exact ⟨setHash e (fs.sha256 q), by rw [findEntry_insert, if_pos rfl], rfl⟩
          · exact h4 q hq0

theorem cksumGo_alreadyHashed_char (fs : FS) (files : List String) (data : Store) (n : Nat)
    (p : String) (st : Store)
    (h : cksumGo fs data n files = CksumResult.alreadyHashed p st) :
    ∃ pre suf e, files = pre ++ p :: suf ∧ st = assignHashes fs data pre ∧
      findEntry st p = some e ∧ e.hash.isSome = true ∧
      (¬p ∈ pre → findEntry st p = findEntry data p) ∧
      (∀ q, q ∈ pre → ∃ e2, findEntry st q = some e2 ∧
        e2.hash = some (Value.str (fs.sha256 q))) := by
  induction files generalizing data n with
  | nil => rw [cksumGo] at h; exact absurd h (by simp)
  | cons p0 rest ih =>
    rw [cksumGo] at h
    cases hf : findEntry data p0 with
    | none => simp only [hf] at h; exact absurd h (by simp)
    | some e0 =>
      simp only [hf] at h
      by_cases hh : e0.hash.isSome
      · rw [if_pos hh] at h
        injection h with h1 h2
        subst h1
        subst h2
        exact ⟨[], rest, e0, rfl, rfl, hf, hh, fun _ => rfl, by simp⟩
      · rw [if_neg hh] at h
        rcases ih _ _ h with ⟨pre, suf, e, h1, h2, h3, h4, h5, h6⟩
        refine ⟨p0 :: pre, suf, e, by rw [h1]; rfl, ?_, h3, h4, ?_, ?_⟩
        · rw [assignHashes, hf]; exact h2
        · intro hp
          have hp0 : ¬p = p0 := fun hh2 => hp (hh2 ▸ List.mem_cons_self p0 pre)
          have hp1 : ¬p ∈ pre := fun hh2 => hp (List.mem_cons_of_mem p0 hh2)
          rw [h5 hp1, findEntry_insert, if_neg hp0]
        · intro q hq
          rcases List.mem_cons.mp hq with hq0 | hq0
          · subst hq0
            rw [h2]
            apply assignHashes_preserves_hashed
            exact ⟨setHash e0 (fs.sha256 q), by rw [findEntry_insert, if_pos rfl], rfl⟩
          · exact h6 q hq0

/-- Claim C4: `cksum` processes the file paths in order and fails fast:
on success the count is the number of paths and every path got its hash
assigned in order; a `NotTracked` or `AlreadyHashed` failure happens at
the first bad path, the returned store is exactly the input store with
the hashes of the earlier prefix assigned (so the failing path's entry
is untouched and earlier hashes remain), and hashing the same single
path twice makes the second call fail with `AlreadyHashed` leaving the
stored hash identical to the first call's result. -/
theorem cksum_failfast_characterization (fs : FS) (data : Store) (files directories : List String) :
    (∀ c st, cksum fs data files directories = CksumResult.ok c st →
        c = files.length ∧ st = assignHashes fs data files) ∧
    (∀ p st, cksum fs data files directories = CksumResult.notTracked p st →
        ∃ pre suf, files = pre ++ p :: suf ∧ st = assignHashes fs data pre ∧
          findEntry st p = none ∧
          (∀ q, q ∈ pre → ∃ e2, findEntry st q = some e2 ∧
            e2.hash = some (Value.str (fs.sha256 q)))) ∧
    (∀ p st, cksum fs data files directories = CksumResult.alreadyHashed p st →
        ∃ pre suf e, files = pre ++ p :: suf ∧ st = assignHashes fs data pre ∧
          findEntry st p = some e ∧ e.hash.isSome = true ∧
          (¬p ∈ pre → findEntry st p = findEntry data p) ∧
          (∀ q, q ∈ pre → ∃ e2, findEntry st q = some e2 ∧
            e2.hash = some (Value.str (fs.sha256 q)))) ∧
    (∀ p e, findEntry data p = some e → e.hash = none →
        cksum fs data [p] directories =
          CksumResult.ok 1 (insertEntry data p (setHash e (fs.sha256 p))) ∧
        cksum fs (insertEntry data p (setHash e (fs.sha256 p))) [p] directories =
          CksumResult.alreadyHashed p (insertEntry data p (setHash e (fs.sha256 p))) ∧
        findEntry (insertEntry data p (setHash e (fs.sha256 p))) p =
          some (setHash e (fs.sha256 p)) ∧
        (setHash e (fs.sha256 p)).hash = some (Value.str (fs.sha256 p))) := by
  refine ⟨?_, ?_, ?_, ?_⟩
  · intro c st h
    rcases cksumGo_ok_char fs files data 0 c st h with ⟨h1, h2⟩
    exact ⟨by omega, h2⟩
  · intro p st h
    exact cksumGo_notTracked_char fs files data 0 p st h
  · intro p st h
    exact cksumGo_alreadyHashed_char fs files data 0 p st h
  · intro p e hf hh
    have hfind : findEntry (insertEntry data p (setHash e (fs.sha256 p))) p =
        some (setHash e (fs.sha256 p)) := by
      rw [findEntry_insert, if_pos rfl]
    refine ⟨?_, ?_, hfind, rfl⟩
    · rw [cksum, cksumGo]
      simp only [hf]
      rw [if_neg (by simp [hh]), cksumGo]
    · rw [cksum, cksumGo]
      simp only [hfind]
      rw [if_pos (by simp [setHash])]

/-- Witness for claim C4: instantiates the twice-scenario at a concrete
store holding one unhashed file entry. -/
theorem cksum_failfast_witness :
    cksum fsA [("/a", entryFile)] ["/a"] [] =
      CksumResult.ok 1 (insertEntry [("/a", entryFile)] "/a" (setHash entryFile (fsA.sha256 "/a"))) ∧
    cksum fsA (insertEntry [("/a", entryFile)] "/a" (setHash entryFile (fsA.sha256 "/a"))) ["/a"] [] =
      CksumResult.alreadyHashed "/a"
        (insertEntry [("/a", entryFile)] "/a" (setHash entryFile (fsA.sha256 "/a"))) := by
  have h := (cksum_failfast_characterization fsA [("/a", entryFile)] ["/a"] []).2.2.2
    "/a" entryFile (by rfl) (by rfl)
  exact ⟨h.1, h.2.1⟩

-- ### verify counts one attribute mismatch per path, hash apart

/-- A tracked file entry whose uid, gid, mode, size AND hash all differ
from what `fsA` currently reports. -/
def entryAltered : Entry :=
  { type := some (Value.str "f"), uid := some (Value.int 1), gid := some (Value.int 2)
    mode := some (Value.str "0o600"), size := some (Value.int 7)
    hash := some (Value.str "deadbeef") }

/-- Claim C7: processing one live file path whose recorded entry has type
`"f"` adds to the attribute-mismatch counter exactly `1` when any
comparable attribute differs (no matter how many differ) and `0`
otherwise, and adds to the hash-changed counter — a separate category —
exactly `1` when a recorded hash differs from the recomputed one;
moreover the mismatch flag depends only on the four attribute fields
uid, gid, mode, size (the recomputed entry has no hash key and its type
equals the recorded type), so a hash difference never feeds the
attribute-mismatch count. -/
theorem verify_mismatch_counted_once (fs : FS) (data : Store) (n m h : Nat)
    (fpath : String) (rest : List String) (e : Entry)
    (hf : findEntry data fpath = some e)
    (ht : e.type = some (Value.str "f")) :
    verifyFiles fs data n m h (fpath :: rest) =
      verifyFiles fs data n
        (m + (if entryMismatch (filedata fs fpath) e then 1 else 0))
        (h + (match e.hash with
              | some hv => if Value.str (fs.sha256 fpath) = hv then 0 else 1
              | none => 0)) rest ∧
    entryMismatch (filedata fs fpath) e =
      (fieldMismatch (filedata fs fpath).uid e.uid ||
       fieldMismatch (filedata fs fpath).gid e.gid ||
       fieldMismatch (filedata fs fpath).mode e.mode ||
       fieldMismatch (filedata fs fpath).size e.size) := by
  constructor
  · rw [verifyFiles]
    simp only [hf, if_pos ht]
    have h1 : (if entryMismatch (filedata fs fpath) e then m + 1 else m) =
        m + (if entryMismatch (filedata fs fpath) e then 1 else 0) := by
      cases entryMismatch (filedata fs fpath) e <;> simp
    have h2 : (match e.hash with
          | some hv => if Value.str (fs.sha256 fpath) = hv then h else h + 1
          | none => h) =
        h + (match e.hash with
          | some hv => if Value.str (fs.sha256 fpath) = hv then 0 else 1
          | none => 0) := by
      cases e.hash with
      | none => simp
      | some hv =>
        by_cases hc : Value.str (fs.sha256 fpath) = hv <;> simp [hc]
    rw [h1, h2]
  · have hhash : fieldMismatch (filedata fs fpath).hash e.hash = false := rfl
    have htype : fieldMismatch (filedata fs fpath).type e.type = false := by
      rw [ht]
      rfl
    rw [entryMismatch, hhash, htype]
    simp

/-- Witness for claim C7: a store entry differing from the live state in
uid, gid, mode, size and hash yields exactly one attribute mismatch and
one hash change. -/
theorem verify_mismatch_counted_once_witness :
    verifyFiles fsA [("/w", entryAltered)] 0 0 0 ["/w"] = ([("/w", entryAltered)], 0, 1, 1) := by
  have h := verify_mismatch_counted_once fsA [("/w", entryAltered)] 0 0 0 "/w" []
    entryAltered rfl rfl
  rw [h.1]
  decide

-- ### update machinery: the files pass rewrites every live file entry

theorem insertEntry_of_findEntry_none (d : Store) (k : String) (v : Entry)
    (h : findEntry d k = none) : insertEntry d k v = d ++ [(k, v)] := by
  induction d with
  | nil => rfl
  | cons kv rest ih =>
    by_cases hk : kv.1 = k
    · rw [findEntry, if_pos hk] at h
      exact absurd h (by simp)
    · rw [findEntry, if_neg hk] at h
      rw [insertEntry, if_neg hk, ih h]
      rfl

/-- `data[p].update(filedata(p))` overwrites the five file keys and keeps
only the old hash value. -/
theorem entryUpdate_filedata (fs : FS) (p : String) (e : Entry) :
    entryUpdate e (filedata fs p) = { filedata fs p with hash := e.hash } := rfl

/-- The merged entry of the files pass, after the unconditional hash
deletion, is exactly `filedata` in both branches. -/
theorem filesPassEntry (fs : FS) (p : String) (e : Entry) :
    (if (entryUpdate e (filedata fs p)).hash.isSome then
        { entryUpdate e (filedata fs p) with hash := none }
      else entryUpdate e (filedata fs p)) = filedata fs p := by
  cases he : e.hash with
  | none => rw [entryUpdate_filedata]; rw [he]; rfl
  | some v => rw [entryUpdate_filedata]; rw [he]; rfl

/-- The pure store effect of the files pass: insert `filedata` for every
processed path, in order. -/
def insertFiledataAll (fs : FS) (data : Store) : List String → Store
  | [] => data
  | p :: rest => insertFiledataAll fs (insertEntry data p (filedata fs p)) rest

theorem updateFiles_fst (fs : FS) (l : List String) (data : Store) (n c r : Nat) :
    (updateFiles fs data n c r l).1 = insertFiledataAll fs data l := by
  induction l generalizing data n c r with
  | nil => rfl
  | cons p rest ih =>
    rw [updateFiles, insertFiledataAll]
    cases hf : findEntry data p with
    | none =>
      simp only [hf]
      exact ih _ _ _ _
    | some e =>
      simp only [hf, filesPassEntry fs p e]
      exact ih _ _ _ _

theorem find_insertFiledataAll (fs : FS) (l : List String) (data : Store) (q : String) :
    findEntry (insertFiledataAll fs data l) q =
      if q ∈ l then some (filedata fs q) else findEntry data q := by
  induction l generalizing data with
  | nil => simp [insertFiledataAll]
  | cons p rest ih =>
    rw [insertFiledataAll, ih]
    by_cases hq : q ∈ rest
    · rw [if_pos hq, if_pos (List.mem_cons_of_mem p hq)]
    · rw [if_neg hq]
      by_cases hqp : q = p
      · subst hqp
        rw [findEntry_insert, if_pos rfl, if_pos (List.mem_cons_self q rest)]
      · rw [findEntry_insert, if_neg hqp, if_neg (by simp [hqp, hq])]

theorem updateDirs_preserves_hash_none (fs : FS) (l : List String) (data : Store)
    (n c : Nat) (q : String) (e : Entry)
    (hf : findEntry data q = some e) (hh : e.hash = none) :
    ∃ e2, findEntry (updateDirs fs data n c l).1 q = some e2 ∧ e2.hash = none := by
  induction l generalizing data n c e with
  | nil => exact ⟨e, hf, hh⟩
  | cons p rest ih =>
    rw [updateDirs]
    cases hfp : findEntry data p with
    | none =>
      simp only [hfp]
      by_cases hqp : q = p
      · subst hqp
        rw [hf] at hfp
        exact absurd hfp (by simp)
      · exact ih _ _ _ _ (by rw [findEntry_insert, if_neg hqp]; exact hf) hh
    | some e0 =>
      simp only [hfp]
      by_cases hqp : q = p
      · subst hqp
        rw [hf] at hfp
        injection hfp with he0
        refine ih _ _ _ _ (by rw [findEntry_insert, if_pos rfl]) ?_
        show (entryUpdate e0 (dirdata fs q)).hash = none
        have : (entryUpdate e0 (dirdata fs q)).hash = e0.hash := rfl
        rw [this, ← he0, hh]
      · exact ih _ _ _ _ (by rw [findEntry_insert, if_neg hqp]; exact hf) hh

-- ### removal pass as a filter, and hash counting

theorem nodup_keysOf_filter (d : Store) (f : String × Entry → Bool)
    (h : (keysOf d).Nodup) : (keysOf (d.filter f)).Nodup :=
  List.Nodup.sublist (List.Sublist.map Prod.fst (List.filter_sublist d)) h

theorem eraseKey_eq_filter (d : Store) (k : String) (h : (keysOf d).Nodup) :
    eraseKey d k = d.filter (fun kv => !(decide (kv.1 = k))) := by
  induction d with
  | nil => rfl
  | cons kv rest ih =>
    rw [keysOf_cons, List.nodup_cons] at h
    by_cases hk : kv.1 = k
    · rw [eraseKey, if_pos hk, List.filter_cons_of_neg (by simp [hk])]
      rw [Eq.comm]
      rw [List.filter_eq_self]
      intro kv2 h2
      have : kv2.1 ≠ k := by
        intro hh
        exact h.1 (by rw [hk, ← hh]; exact List.mem_map.mpr ⟨kv2, h2, rfl⟩)
      simp [this]
    · rw [eraseKey, if_neg hk, List.filter_cons_of_pos (by simp [hk]), ih h.2]

theorem foldl_eraseKey_eq_filter (ks : List String) (d : Store) (h : (keysOf d).Nodup) :
    ks.foldl (fun d2 k => eraseKey d2 k) d = d.filter (fun kv => !(decide (kv.1 ∈ ks))) := by
  induction ks generalizing d with
  | nil =>
    rw [List.foldl_nil, Eq.comm, List.filter_eq_self]
    intro kv _
    simp
  | cons k ks2 ih =>
    rw [List.foldl_cons, ih (eraseKey d k) (by
      rw [eraseKey_eq_filter d k h]
      exact nodup_keysOf_filter d _ h)]
    rw [eraseKey_eq_filter d k h, List.filter_filter]
    apply List.filter_congr
    intro kv _
    by_cases h1 : kv.1 = k <;> by_cases h2 : kv.1 ∈ ks2 <;> simp [h1, h2]

theorem removePass_fst (data : Store) (files directories : List String)
    (h : (keysOf data).Nodup) :
    (removePass data files directories).1 =
      data.filter (fun kv => decide (kv.1 ∈ files) || decide (kv.1 ∈ directories)) := by
  show ((keysOf data).filter _).foldl _ data = _
  rw [foldl_eraseKey_eq_filter _ data h]
  apply List.filter_congr
  intro kv hkv
  have hm : kv.1 ∈ keysOf data := List.mem_map.mpr ⟨kv, hkv, rfl⟩
  by_cases h1 : kv.1 ∈ files <;> by_cases h2 : kv.1 ∈ directories <;>
    simp [List.mem_filter, h1, h2, hm]

theorem nodup_keysOf_removePass (data : Store) (files directories : List String)
    (h : (keysOf data).Nodup) :
    (keysOf (removePass data files directories).1).Nodup := by
  rw [removePass_fst data files directories h]
  exact nodup_keysOf_filter data _ h

theorem countP_insertEntry (d : Store) (p : String) (e v : Entry)
    (pred : String × Entry → Bool) (hf : findEntry d p = some e) :
    List.countP pred (insertEntry d p v) + (if pred (p, e) then 1 else 0) =
      List.countP pred d + (if pred (p, v) then 1 else 0) := by
  induction d with
  | nil => simp [findEntry] at hf
  | cons kv rest ih =>
    obtain ⟨a, b⟩ := kv
    by_cases hk : a = p
    · subst hk
      simp only [findEntry, if_pos rfl] at hf
      injection hf with hf
      subst hf
      simp [insertEntry, List.countP_cons]
      omega
    · simp only [findEntry, if_neg hk] at hf
      simp only [insertEntry, if_neg hk, List.countP_cons]
      have := ih hf
      omega

theorem countP_key_split (d : Store) (p : String) (e : Entry) (rest : List String)
    (pred : Entry → Bool) (hnd : (keysOf d).Nodup) (hf : findEntry d p = some e) :
    List.countP (fun kv => decide (kv.1 ∈ p :: rest) && pred kv.2) d =
      List.countP (fun kv => decide (kv.1 ∈ rest) && pred kv.2) d +
        (if p ∈ rest then 0 else (if pred e then 1 else 0)) := by
  induction d with
  | nil => simp [findEntry] at hf
  | cons kv tl ih =>
    obtain ⟨a, b⟩ := kv
    rw [keysOf_cons, List.nodup_cons] at hnd
    by_cases hk : a = p
    · subst hk
      simp only [findEntry, if_pos rfl] at hf
      injection hf with hf
      subst hf
      have hcong : List.countP (fun kv => decide (kv.1 ∈ a :: rest) && pred kv.2) tl =
          List.countP (fun kv => decide (kv.1 ∈ rest) && pred kv.2) tl := by
        apply List.countP_congr
        intro kv hkv
        have hne : ¬kv.1 = a := by
          intro hh
          exact hnd.1 (by rw [← hh]; exact List.mem_map.mpr ⟨kv, hkv, rfl⟩)
        simp [List.mem_cons, hne]
      rw [List.countP_cons, List.countP_cons, hcong]
      by_cases hr : a ∈ rest <;> by_cases hp : pred b <;>
        simp [hr, hp]
    · simp only [findEntry, if_neg hk] at hf
      rw [List.countP_cons, List.countP_cons, ih hnd.2 hf]
      have hhead : (decide ((a, b).1 ∈ p :: rest) && pred (a, b).2) =
          (decide ((a, b).1 ∈ rest) && pred (a, b).2) := by
        simp [List.mem_cons, hk]
      rw [hhead]
      omega

theorem updateFiles_rh (fs : FS) (l : List String) (data : Store) (n c r : Nat)
    (hnd : (keysOf data).Nodup) :
    (updateFiles fs data n c r l).2.2.2 =
      r + List.countP (fun kv => decide (kv.1 ∈ l) && kv.2.hash.isSome) data := by
  induction l generalizing data n c r with
  | nil =>
    have h0 : List.countP (fun kv => decide (kv.1 ∈ ([] : List String)) && kv.2.hash.isSome)
        data = 0 := by
      apply List.countP_eq_zero.mpr
      intro kv _
      simp
    rw [updateFiles, h0]
    rfl
  | cons p rest ih =>
    rw [updateFiles]
    cases hf : findEntry data p with
    | none =>
      simp only [hf]
      rw [ih _ _ _ _ (nodup_keysOf_insertEntry _ _ _ hnd)]
      rw [insertEntry_of_findEntry_none _ _ _ hf, List.countP_append]
      have h1 : List.countP (fun kv => decide (kv.1 ∈ rest) && kv.2.hash.isSome)
          [(p, filedata fs p)] = 0 := by
        simp [filedata]
      have h2 : List.countP (fun kv => decide (kv.1 ∈ p :: rest) && kv.2.hash.isSome) data =
          List.countP (fun kv => decide (kv.1 ∈ rest) && kv.2.hash.isSome) data := by
        apply List.countP_congr
        intro kv hkv
        have hne : kv.1 ≠ p := not_mem_of_findEntry_eq_none data p hf kv hkv
        simp [List.mem_cons, hne]
      rw [h1, h2]
      omega
    | some e =>
      simp only [hf, filesPassEntry fs p e]
      have hh : (entryUpdate e (filedata fs p)).hash = e.hash := rfl
      rw [hh]
      rw [ih _ _ _ _ (nodup_keysOf_insertEntry _ _ _ hnd)]
      have hci := countP_insertEntry data p e (filedata fs p)
        (fun kv => decide (kv.1 ∈ rest) && kv.2.hash.isSome) hf
      have hsplit := countP_key_split data p e rest (fun e2 => e2.hash.isSome) hnd hf
      by_cases hs : e.hash.isSome <;> by_cases hr : p ∈ rest <;>
        simp [hs, hr, filedata] at hci hsplit ⊢ <;> omega

-- ### claim C5: the files pass clears hashes unconditionally

/-- A concrete store with one hashed and one unhashed file entry. -/
def dataHashed : Store := [("/a", entryFileHashed), ("/b", entryFile)]

/-- Claim C5: during `update`, every path of the files list ends up
tracked with no hash field — the hash is cleared unconditionally, even
when no attribute differs — and the removed-hash counter equals the
number of store entries whose key is a live file path and which carried
a hash. -/
theorem update_clears_file_hashes (fs : FS) (data : Store) (files directories : List String)
    (hnd : (keysOf data).Nodup) :
    (∀ p, p ∈ files → ∃ e, findEntry (update fs data files directories).store p = some e ∧
        e.hash = none) ∧
    (update fs data files directories).removed_hash_count =
      List.countP (fun kv => decide (kv.1 ∈ files) && kv.2.hash.isSome) data := by
  constructor
  · intro p hp
    show ∃ e, findEntry (updateDirs fs _ _ _ directories).1 p = some e ∧ e.hash = none
    apply updateDirs_preserves_hash_none fs directories _ _ _ p (filedata fs p)
    · rw [updateFiles_fst, find_insertFiledataAll, if_pos hp]
    · rfl
  · show (updateFiles fs (removePass data files directories).1 0 0 0 files).2.2.2 = _
    rw [updateFiles_rh fs files _ 0 0 0 (nodup_keysOf_removePass data files directories hnd)]
    rw [removePass_fst data files directories hnd, List.countP_filter]
    rw [Nat.zero_add]
    apply List.countP_congr
    intro kv _
    by_cases h1 : kv.1 ∈ files <;> simp [h1]

/-- Witness for claim C5: on a store holding one hashed entry at the
single live file path and one unhashed entry elsewhere, the
removed-hash counter is 1. -/
theorem update_clears_file_hashes_witness :
    (update fsA dataHashed ["/a"] []).removed_hash_count = 1 := by
  rw [(update_clears_file_hashes fsA dataHashed ["/a"] [] (by decide)).2]
  decide

-- ### stability of update on an already reconciled store

theorem fieldChanged_refl (x : Option Value) : fieldChanged x x = false := by
  cases x <;> simp [fieldChanged]

theorem entryChanged_refl (e : Entry) : entryChanged e e = false := by
  simp [entryChanged, fieldChanged_refl]

theorem entryChanged_entryUpdate (e nd : Entry) :
    entryChanged (entryUpdate e nd) nd = false := by
  have hf : ∀ a b : Option Value, fieldChanged (fieldUpdate a b) b = false := by
    intro a b
    cases b <;> simp [fieldChanged, fieldUpdate]
  simp [entryChanged, entryUpdate, hf]

theorem entryUpdate_of_not_changed (e nd : Entry) (h : entryChanged e nd = false) :
    entryUpdate e nd = e := by
  have hf : ∀ a b : Option Value, fieldChanged a b = false → fieldUpdate a b = a := by
    intro a b hab
    cases b with
    | none => rfl
    | some v =>
      simp [fieldChanged] at hab
      simp [fieldUpdate, hab]
  simp only [entryChanged, Bool.or_eq_false_iff] at h
  obtain ⟨⟨⟨⟨⟨h1, h2⟩, h3⟩, h4⟩, h5⟩, h6⟩ := h
  cases e
  simp only [entryUpdate]
  congr 1 <;> first
    | exact hf _ _ h1 | exact hf _ _ h2 | exact hf _ _ h3
    | exact hf _ _ h4 | exact hf _ _ h5 | exact hf _ _ h6

theorem removePass_stable (st : Store) (files directories : List String)
    (h : ∀ k, k ∈ keysOf st → k ∈ files ∨ k ∈ directories) :
    removePass st files directories = (st, 0) := by
  have h0 : (keysOf st).filter
      (fun k => !(decide (k ∈ files)) && !(decide (k ∈ directories))) = [] := by
    rw [List.filter_eq_nil_iff]
    intro k hk
    rcases h k hk with h1 | h1 <;> simp [h1]
  rw [removePass]
  simp only [h0]
  rfl

theorem updateFiles_stable (fs : FS) (l : List String) (st : Store) (n c r : Nat)
    (h : ∀ p, p ∈ l → findEntry st p = some (filedata fs p)) :
    updateFiles fs st n c r l = (st, n, c, r) := by
  induction l generalizing n c r with
  | nil => rfl
  | cons p rest ih =>
    have hp := h p (List.mem_cons_self p rest)
    rw [updateFiles]
    simp only [hp]
    have he2 : entryUpdate (filedata fs p) (filedata fs p) = filedata fs p := rfl
    have hnone : (filedata fs p).hash.isSome = false := rfl
    simp only [entryChanged_refl, he2, hnone, Bool.false_eq_true, if_false]
    rw [insertEntry_of_findEntry st p (filedata fs p) hp]
    exact ih _ _ _ (fun q hq => h q (List.mem_cons_of_mem p hq))

theorem updateDirs_stable (fs : FS) (l : List String) (st : Store) (n c : Nat)
    (h : ∀ p, p ∈ l → ∃ e, findEntry st p = some e ∧ entryChanged e (dirdata fs p) = false) :
    updateDirs fs st n c l = (st, n, c) := by
  induction l generalizing n c with
  | nil => rfl
  | cons p rest ih =>
    rcases h p (List.mem_cons_self p rest) with ⟨e, hf, hch⟩
    rw [updateDirs]
    simp only [hf, hch, Bool.false_eq_true, if_false]
    rw [entryUpdate_of_not_changed e (dirdata fs p) hch,
      insertEntry_of_findEntry st p e hf]
    exact ih _ _ (fun q hq => h q (List.mem_cons_of_mem p hq))

/-- A store on which `update` is a no-op with all four counters zero:
every key is live, every live file path is recorded exactly as
`filedata`, and every live directory path is recorded with an entry the
directory pass would not change. -/
theorem update_stable (fs : FS) (st : Store) (files directories : List String)
    (h3 : ∀ k, k ∈ keysOf st → k ∈ files ∨ k ∈ directories)
    (h1 : ∀ p, p ∈ files → findEntry st p = some (filedata fs p))
    (h2 : ∀ p, p ∈ directories →
      ∃ e, findEntry st p = some e ∧ entryChanged e (dirdata fs p) = false) :
    update fs st files directories = ⟨0, 0, 0, 0, st⟩ := by
  rw [update, removePass_stable st files directories h3]
  simp only [updateFiles_stable fs files st 0 0 0 h1,
    updateDirs_stable fs directories st 0 0 h2]

-- ### the store after one update run is stable

theorem updateDirs_find_of_not_mem (fs : FS) (l : List String) (d : Store) (n c : Nat)
    (q : String) (h : ¬q ∈ l) :
    findEntry (updateDirs fs d n c l).1 q = findEntry d q := by
  induction l generalizing d n c with
  | nil => rfl
  | cons p rest ih =>
    have hq : ¬q ∈ rest := fun hh => h (List.mem_cons_of_mem p hh)
    have hqp : ¬q = p := fun hh => h (hh ▸ List.mem_cons_self p rest)
    rw [updateDirs]
    cases hf : findEntry d p with
    | none =>
      simp only [hf]
      rw [ih _ _ _ hq, findEntry_insert, if_neg hqp]
    | some e =>
      simp only [hf]
      rw [ih _ _ _ hq, findEntry_insert, if_neg hqp]

/-- After the directory pass has processed a path, its entry is one the
pass would not change again. -/
def goodDir (fs : FS) (d : Store) (p : String) : Prop :=
  ∃ e, findEntry d p = some e ∧ entryChanged e (dirdata fs p) = false

theorem updateDirs_preserves_good (fs : FS) (l : List String) (d : Store) (n c : Nat)
    (q : String) (h : goodDir fs d q) : goodDir fs (updateDirs fs d n c l).1 q := by
  induction l generalizing d n c with
  | nil => exact h
  | cons p rest ih =>
    rw [updateDirs]
    cases hf : findEntry d p with
    | none =>
      simp only [hf]
      apply ih
      by_cases hqp : q = p
      · subst hqp
        rcases h with ⟨e, he, _⟩
        rw [he] at hf
        exact absurd hf (by simp)
      · rcases h with ⟨e, he, hc⟩
        exact ⟨e, by rw [findEntry_insert, if_neg hqp]; exact he, hc⟩
    | some e0 =>
      simp only [hf]
      apply ih
      by_cases hqp : q = p
      · subst hqp
        exact ⟨entryUpdate e0 (dirdata fs q), by rw [findEntry_insert, if_pos rfl],
          entryChanged_entryUpdate e0 (dirdata fs q)⟩
      · rcases h with ⟨e, he, hc⟩
        exact ⟨e, by rw [findEntry_insert, if_neg hqp]; exact he, hc⟩

theorem updateDirs_establishes_good (fs : FS) (l : List String) (d : Store) (n c : Nat)
    (p : String) (hp : p ∈ l) : goodDir fs (updateDirs fs d n c l).1 p := by
  induction l generalizing d n c with
  | nil => simp at hp
  | cons p0 rest ih =>
    rw [updateDirs]
    cases hf : findEntry d p0 with
    | none =>
      simp only [hf]
      by_cases hpp : p ∈ rest
      · exact ih _ _ _ hpp
      · have hp0 : p = p0 := by
          rcases List.mem_cons.mp hp with h | h
          · exact h
          · exact absurd h hpp
        subst hp0
        apply updateDirs_preserves_good
        exact ⟨dirdata fs p, by rw [findEntry_insert, if_pos rfl], entryChanged_refl _⟩
    | some e0 =>
      simp only [hf]
      by_cases hpp : p ∈ rest
      · exact ih _ _ _ hpp
      · have hp0 : p = p0 := by
          rcases List.mem_cons.mp hp with h | h
          · exact h
          · exact absurd h hpp
        subst hp0
        apply updateDirs_preserves_good
        exact ⟨entryUpdate e0 (dirdata fs p), by rw [findEntry_insert, if_pos rfl],
          entryChanged_entryUpdate e0 (dirdata fs p)⟩

theorem mem_keysOf_insertEntry (d : Store) (k : String) (v : Entry) (q : String)
    (h : q ∈ keysOf (insertEntry d k v)) : q ∈ keysOf d ∨ q = k := by
  rw [keysOf_insertEntry] at h
  by_cases hc : containsKey d k
  · rw [if_pos hc] at h
    exact Or.inl h
  · rw [if_neg hc] at h
    rcases List.mem_append.mp h with h2 | h2
    · exact Or.inl h2
    · simp at h2
      exact Or.inr h2

theorem mem_keysOf_insertFiledataAll (fs : FS) (l : List String) (d : Store) (q : String)
    (h : q ∈ keysOf (insertFiledataAll fs d l)) : q ∈ keysOf d ∨ q ∈ l := by
  induction l generalizing d with
  | nil => exact Or.inl h
  | cons p rest ih =>
    rcases ih _ h with h2 | h2
    · rcases mem_keysOf_insertEntry _ _ _ _ h2 with h3 | h3
      · exact Or.inl h3
      · exact Or.inr (h3 ▸ List.mem_cons_self p rest)
    · exact Or.inr (List.mem_cons_of_mem p h2)

theorem mem_keysOf_updateDirs (fs : FS) (l : List String) (d : Store) (n c : Nat) (q : String)
    (h : q ∈ keysOf (updateDirs fs d n c l).1) : q ∈ keysOf d ∨ q ∈ l := by
  induction l generalizing d n c with
  | nil => exact Or.inl h
  | cons p rest ih =>
    rw [updateDirs] at h
    cases hf : findEntry d p with
    | none =>
      simp only [hf] at h
      rcases ih _ _ _ h with h2 | h2
      · rcases mem_keysOf_insertEntry _ _ _ _ h2 with h3 | h3
        · exact Or.inl h3
        · exact Or.inr (h3 ▸ List.mem_cons_self p rest)
      · exact Or.inr (List.mem_cons_of_mem p h2)
    | some e0 =>
      simp only [hf] at h
      rcases ih _ _ _ h with h2 | h2
      · rcases mem_keysOf_insertEntry _ _ _ _ h2 with h3 | h3
        · exact Or.inl h3
        · exact Or.inr (h3 ▸ List.mem_cons_self p rest)
      · exact Or.inr (List.mem_cons_of_mem p h2)

-- ### claim C6: idempotence of the reconcile counters

/-- Claim C6, counterexample: with the same path supplied in both live
lists (files = directories = ["/x"]), the second of two identical
`update` runs still reports 2 changed entries, not 0 — the files pass
and the directories pass keep overwriting each other's `type` field. -/
theorem update_idempotent_counters_cex :
    (update fsA (update fsA [] ["/x"] ["/x"]).store ["/x"] ["/x"]).changed_count = 2 := by
  decide

/-- Claim C6 as amended: for every store (a mapping: no duplicate keys)
and live path lists with no path appearing in both lists, running
`update` twice with the same per-path attribute computation makes the
second run report zero new entries, zero changed entries, zero removed
hashes and zero removed entries — indeed the second run is a no-op on
the store. -/
theorem update_idempotent_counters_amended (fs : FS) (data : Store)
    (files directories : List String)
    (hnd : (keysOf data).Nodup) (hdisj : files.Disjoint directories) :
    update fs (update fs data files directories).store files directories =
      ⟨0, 0, 0, 0, (update fs data files directories).store⟩ := by
  apply update_stable
  · intro k hk
    have hk2 : k ∈ keysOf (updateDirs fs
        (updateFiles fs (removePass data files directories).1 0 0 0 files).1
        (updateFiles fs (removePass data files directories).1 0 0 0 files).2.1
        (updateFiles fs (removePass data files directories).1 0 0 0 files).2.2.1
        directories).1 := hk
    rcases mem_keysOf_updateDirs _ _ _ _ _ _ hk2 with h2 | h2
    · rw [updateFiles_fst] at h2
      rcases mem_keysOf_insertFiledataAll _ _ _ _ h2 with h3 | h3
      · rw [removePass_fst data files directories hnd] at h3
        rcases List.mem_map.mp h3 with ⟨kv, hkv, hfst⟩
        rw [List.mem_filter] at hkv
        have hor := hkv.2
        simp only [Bool.or_eq_true, decide_eq_true_eq] at hor
        rw [← hfst]
        exact hor
      · exact Or.inl h3
    · exact Or.inr h2
  · intro p hp
    show findEntry (updateDirs fs
        (updateFiles fs (removePass data files directories).1 0 0 0 files).1
        _ _ directories).1 p = some (filedata fs p)
    rw [updateDirs_find_of_not_mem fs directories _ _ _ p (fun hh => hdisj hp hh)]
    rw [updateFiles_fst, find_insertFiledataAll, if_pos hp]
  · intro p hp
    exact updateDirs_establishes_good fs directories _ _ _ p hp

/-- Witness for claim C6 (amended): a double reconcile over two files
and one directory from a concrete store reports all four counters 0 on
the second run. -/
theorem update_idempotent_counters_witness :
    update fsA (update fsA dataHashed ["/a", "/b"] ["/d"]).store ["/a", "/b"] ["/d"] =
      ⟨0, 0, 0, 0, (update fsA dataHashed ["/a", "/b"] ["/d"]).store⟩ := by
  apply update_idempotent_counters_amended
  · decide
  · intro a h1 h2
    fin_cases h1 <;> simp at h2

-- ### claim C1: no Directory entry may carry hash or size

/-- The data-model invariant: an entry of type `"d"` carries neither a
"hash" nor a "size" key. -/
def entryDirOk (e : Entry) : Bool :=
  if e.type = some (Value.str "d") then (e.hash.isNone && e.size.isNone) else true

/-- The invariant over the whole store. -/
def dirInvariant (d : Store) : Bool :=
  d.all (fun kv => entryDirOk kv.2)

theorem dirInvariant_insert (d : Store) (k : String) (v : Entry)
    (hd : dirInvariant d = true) (hv : entryDirOk v = true) :
    dirInvariant (insertEntry d k v) = true := by
  induction d with
  | nil => simp [insertEntry, dirInvariant, hv]
  | cons kv rest ih =>
    rw [dirInvariant, List.all_cons, Bool.and_eq_true] at hd
    by_cases hk : kv.1 = k
    · rw [insertEntry, if_pos hk]
      simp only [dirInvariant, List.all_cons, Bool.and_eq_true]
      exact ⟨hv, hd.2⟩
    · rw [insertEntry, if_neg hk]
      simp only [dirInvariant, List.all_cons, Bool.and_eq_true]
      exact ⟨hd.1, ih hd.2⟩

theorem dirInvariant_find (d : Store) (k : String) (e : Entry)
    (hd : dirInvariant d = true) (hf : findEntry d k = some e) : entryDirOk e = true := by
  rw [dirInvariant, List.all_eq_true] at hd
  exact hd (k, e) (findEntry_mem d k e hf)

theorem dirInvariant_of_sublist (d d2 : Store) (hs : List.Sublist d d2)
    (hd : dirInvariant d2 = true) : dirInvariant d = true := by
  rw [dirInvariant, List.all_eq_true] at hd ⊢
  exact fun kv hkv => hd kv (hs.mem hkv)

theorem eraseKey_sublist (d : Store) (k : String) : List.Sublist (eraseKey d k) d := by
  induction d with
  | nil => exact List.Sublist.refl []
  | cons kv rest ih =>
    rw [eraseKey]
    by_cases hk : kv.1 = k
    · rw [if_pos hk]
      exact List.sublist_cons_self kv rest
    · rw [if_neg hk]
      exact List.Sublist.cons₂ kv ih

theorem foldl_eraseKey_sublist (ks : List String) (d : Store) :
    List.Sublist (ks.foldl (fun d2 k => eraseKey d2 k) d) d := by
  induction ks generalizing d with
  | nil => exact List.Sublist.refl d
  | cons k ks2 ih => exact (ih (eraseKey d k)).trans (eraseKey_sublist d k)

theorem removePass_sublist (data : Store) (files directories : List String) :
    List.Sublist (removePass data files directories).1 data :=
  foldl_eraseKey_sublist _ data

theorem entryDirOk_filedata (fs : FS) (p : String) : entryDirOk (filedata fs p) = true := rfl

theorem entryDirOk_dirdata (fs : FS) (p : String) : entryDirOk (dirdata fs p) = true := rfl

theorem entryDirOk_setHash (e : Entry) (h : String)
    (ht : ¬e.type = some (Value.str "d")) : entryDirOk (setHash e h) = true := by
  have : (setHash e h).type = e.type := rfl
  rw [entryDirOk, this, if_neg ht]

theorem addFiles_preserves_dirInvariant (fs : FS) (l : List String) (d : Store)
    (hd : dirInvariant d = true) :
    dirInvariant (addStore (addFiles fs d l)) = true := by
  induction l generalizing d with
  | nil => exact hd
  | cons p rest ih =>
    rw [addFiles]
    by_cases hc : containsKey d p
    · rw [if_pos hc]
      exact hd
    · rw [if_neg hc]
      exact ih _ (dirInvariant_insert d p _ hd (entryDirOk_filedata fs p))

theorem addDirs_preserves_dirInvariant (fs : FS) (l : List String) (d : Store)
    (hd : dirInvariant d = true) :
    dirInvariant (addStore (addDirs fs d l)) = true := by
  induction l generalizing d with
  | nil => exact hd
  | cons p rest ih =>
    rw [addDirs]
    by_cases hc : containsKey d p
    · rw [if_pos hc]
      exact hd
    · rw [if_neg hc]
      exact ih _ (dirInvariant_insert d p _ hd (entryDirOk_dirdata fs p))

theorem cksumGo_preserves_dirInvariant (fs : FS) (l : List String) (d : Store) (n : Nat)
    (hd : dirInvariant d = true)
    (hty : ∀ p, p ∈ l → ∀ e, findEntry d p = some e → ¬e.type = some (Value.str "d")) :
    dirInvariant (cksumStore (cksumGo fs d n l)) = true := by
  induction l generalizing d n with
  | nil => exact hd
  | cons p rest ih =>
    rw [cksumGo]
    cases hf : findEntry d p with
    | none => exact hd
    | some e =>
      simp only [hf]
      by_cases hh : e.hash.isSome
      · rw [if_pos hh]
        exact hd
      · rw [if_neg hh]
        have hte := hty p (List.mem_cons_self p rest) e hf
        apply ih
        · exact dirInvariant_insert d p _ hd (entryDirOk_setHash e _ hte)
        · intro q hq e2 hf2
          by_cases hqp : q = p
          · subst hqp
            rw [findEntry_insert, if_pos rfl] at hf2
            injection hf2 with hf2
            rw [← hf2]
            exact hte
          · rw [findEntry_insert, if_neg hqp] at hf2
            exact hty q (List.mem_cons_of_mem p hq) e2 hf2

theorem insertFiledataAll_preserves_dirInvariant (fs : FS) (l : List String) (d : Store)
    (hd : dirInvariant d = true) : dirInvariant (insertFiledataAll fs d l) = true := by
  induction l generalizing d with
  | nil => exact hd
  | cons p rest ih =>
    exact ih _ (dirInvariant_insert d p _ hd (entryDirOk_filedata fs p))

theorem updateDirs_preserves_dirInvariant (fs : FS) (l : List String) (d : Store) (n c : Nat)
    (hd : dirInvariant d = true)
    (hty : ∀ p, p ∈ l → ∀ e, findEntry d p = some e → e.type = some (Value.str "d")) :
    dirInvariant (updateDirs fs d n c l).1 = true := by
  induction l generalizing d n c with
  | nil => exact hd
  | cons p rest ih =>
    rw [updateDirs]
    cases hf : findEntry d p with
    | none =>
      simp only [hf]
      apply ih
      · exact dirInvariant_insert d p _ hd (entryDirOk_dirdata fs p)
      · intro q hq e2 hf2
        by_cases hqp : q = p
        · subst hqp
          rw [findEntry_insert, if_pos rfl] at hf2
          injection hf2 with hf2
          rw [← hf2]
          rfl
        · rw [findEntry_insert, if_neg hqp] at hf2
          exact hty q (List.mem_cons_of_mem p hq) e2 hf2
    | some e =>
      simp only [hf]
      have hte := hty p (List.mem_cons_self p rest) e hf
      have hok := dirInvariant_find d p e hd hf
      rw [entryDirOk, if_pos hte, Bool.and_eq_true, Option.isNone_iff_eq_none,
        Option.isNone_iff_eq_none] at hok
      have hmerged : entryDirOk (entryUpdate e (dirdata fs p)) = true := by
        have h1 : (entryUpdate e (dirdata fs p)).type = some (Value.str "d") := rfl
        have h2 : (entryUpdate e (dirdata fs p)).hash = e.hash := rfl
        have h3 : (entryUpdate e (dirdata fs p)).size = e.size := rfl
        rw [entryDirOk, if_pos h1, h2, h3, hok.1, hok.2]
        rfl
      apply ih
      · exact dirInvariant_insert d p _ hd hmerged
      · intro q hq e2 hf2
        by_cases hqp : q = p
        · subst hqp
          rw [findEntry_insert, if_pos rfl] at hf2
          injection hf2 with hf2
          rw [← hf2]
          rfl
        · rw [findEntry_insert, if_neg hqp] at hf2
          exact hty q (List.mem_cons_of_mem p hq) e2 hf2

/-- Claim C1, counterexample: a store tracking "/x" as a hashed file
satisfies the invariant; after the live filesystem turns "/x" into a
directory (a well-formed live partition with files = [] and
directories = ["/x"]), `update` merges `dirdata` into the old file entry
without deleting its "size" or "hash" keys, leaving a Directory-typed
entry that carries both — the invariant is broken. -/
theorem dir_invariant_not_preserved_cex :
    dirInvariant [("/x", entryFileHashed)] = true ∧
    dirInvariant (update fsA [("/x", entryFileHashed)] [] ["/x"]).store = false := by
  constructor <;> decide

/-- Claim C1 as amended: starting from a store satisfying the invariant,
`add` and `verify` preserve it unconditionally; `cksum` preserves it
provided no supplied file path is currently tracked with type `"d"`;
`update` preserves it provided the two live lists are disjoint and every
supplied directory path that is tracked is tracked with type `"d"` (the
counterexample shows the type-flip case the original claim fails on). -/
theorem dir_invariant_preservation_amended (fs : FS) (data : Store)
    (files directories : List String)
    (hinv : dirInvariant data = true) :
    dirInvariant (addStore (add fs data files directories)) = true ∧
    dirInvariant (verify fs data files directories).store = true ∧
    (data.all (fun kv => !(decide (kv.1 ∈ files)) ||
        !(decide (kv.2.type = some (Value.str "d")))) = true →
      dirInvariant (cksumStore (cksum fs data files directories)) = true) ∧
    (files.Disjoint directories →
      data.all (fun kv => !(decide (kv.1 ∈ directories)) ||
        decide (kv.2.type = some (Value.str "d"))) = true →
      dirInvariant (update fs data files directories).store = true) := by
  refine ⟨?_, ?_, ?_, ?_⟩
  · rw [add]
    cases haf : addFiles fs data files with
    | ok d2 =>
      have h2 := addFiles_preserves_dirInvariant fs files data hinv
      rw [haf] at h2
      exact addDirs_preserves_dirInvariant fs directories d2 h2
    | conflict p d2 =>
      have h2 := addFiles_preserves_dirInvariant fs files data hinv
      rw [haf] at h2
      exact h2
  · rw [verify_store_eq]
    exact hinv
  · intro hc
    apply cksumGo_preserves_dirInvariant fs files data 0 hinv
    intro p hp e hf ht
    rw [List.all_eq_true] at hc
    have := hc (p, e) (findEntry_mem data p e hf)
    simp only [Bool.or_eq_true, Bool.not_eq_eq_eq_not, Bool.not_true, decide_eq_false_iff_not,
      decide_eq_true_eq] at this
    rcases this with h1 | h1
    · exact h1 hp
    · exact h1 ht
  · intro hdisj hd
    show dirInvariant (updateDirs fs
        (updateFiles fs (removePass data files directories).1 0 0 0 files).1
        _ _ directories).1 = true
    have hsub := removePass_sublist data files directories
    have hinv1 := dirInvariant_of_sublist _ data hsub hinv
    rw [updateFiles_fst]
    apply updateDirs_preserves_dirInvariant
    · exact insertFiledataAll_preserves_dirInvariant fs files _ hinv1
    · intro p hp e hf
      rw [find_insertFiledataAll, if_neg (fun hh => hdisj hh hp)] at hf
      rw [List.all_eq_true] at hd
      have := hd (p, e) (hsub.mem (findEntry_mem _ p e hf))
      simp only [Bool.or_eq_true, Bool.not_eq_eq_eq_not, Bool.not_true, decide_eq_false_iff_not,
        decide_eq_true_eq] at this
      rcases this with h1 | h1
      · exact absurd hp h1
      · exact h1

/-- Witness for claim C1 (amended): the four operations run on a
concrete two-file store, with the side conditions discharged. -/
theorem dir_invariant_preservation_witness :
    dirInvariant (addStore (add fsA dataHashed ["/a", "/b"] ["/d"])) = true ∧
    dirInvariant (verify fsA dataHashed ["/a", "/b"] ["/d"]).store = true ∧
    dirInvariant (cksumStore (cksum fsA dataHashed ["/a", "/b"] ["/d"])) = true ∧
    dirInvariant (update fsA dataHashed ["/a", "/b"] ["/d"]).store = true := by
  have h := dir_invariant_preservation_amended fsA dataHashed ["/a", "/b"] ["/d"] (by decide)
  exact ⟨h.1, h.2.1, h.2.2.1 (by decide),
    h.2.2.2 (by intro a h1 h2; fin_cases h1 <;> simp at h2) (by decide)⟩

end HIDS
